import Mathlib

/-!
Verification of the Merkle payment-commitment core of the
lauzhack-2025-meowmeowmeow ticketing backend: the incremental Poseidon
Merkle tree (utils/merkle-tree.ts), the payment service
(services/payment-service.ts), the field encoder
(utils/field-encoding.ts) and the two proof verifiers
(verifyPaymentProof in services, verifyTicketProof in zk/proof-verifier.ts).

The Poseidon permutation lives in the external circomlibjs dependency,
so it is modelled as an uninterpreted function parameter: hash2 for the
two-input Merkle compression, hash1 and hash3 for field encoding and
leaf commitments.  Field-element decimal strings are modelled by their
numeric values (Nat); values compared verbatim as strings at API
boundaries stay String.  JS Maps are modelled as association lists with
newest-binding-wins lookup, and the node cache mutation of the source is
made explicit by threading the tree state through every operation.
-/

namespace Meow

/-- The BN128 scalar field modulus, as hard-coded in
payment-service.ts and field-encoding.ts. -/
def fieldPrime : Nat :=
  21888242871839275222246405745257275088548364400416034343698204186575808495617

/-- JS Map.get on an association list: the most recent binding wins. -/
def mapGet : List (Nat × Nat) → Nat → Option Nat
  | [], _ => none
  | kv :: rest, k => if kv.1 = k then some kv.2 else mapGet rest k

/-- JS Map.set: the new binding shadows any older one. -/
def mapSet (m : List (Nat × Nat)) (k v : Nat) : List (Nat × Nat) :=
  (k, v) :: m

/-- Lookup in the node cache, keyed by (level, index). -/
def cacheGet : List ((Nat × Nat) × Nat) → Nat × Nat → Option Nat
  | [], _ => none
  | kv :: rest, k => if kv.1 = k then some kv.2 else cacheGet rest k

/-- Store a computed node value in the cache. -/
def cacheSet (m : List ((Nat × Nat) × Nat)) (k : Nat × Nat) (v : Nat) :
    List ((Nat × Nat) × Nat) :=
  (k, v) :: m

/-- JS Map.delete: the key is absent afterwards. -/
def cacheDel : List ((Nat × Nat) × Nat) → Nat × Nat → List ((Nat × Nat) × Nat)
  | [], _ => []
  | kv :: rest, k => if kv.1 = k then cacheDel rest k else kv :: cacheDel rest k

/-- The per-level zero-subtree hashes of merkle-tree.ts:
zeros 0 = 0 (the empty leaf) and zeros (l+1) = hash2 (zeros l) (zeros l). -/
def zeros (hash2 : Nat → Nat → Nat) : Nat → Nat
  | 0 => 0
  | l + 1 => hash2 (zeros hash2 l) (zeros hash2 l)

/-- The MerkleTree state of merkle-tree.ts: fixed depth, a map from leaf
index to leaf value, a cache of computed internal nodes keyed by
(level, index), and the next free leaf index. -/
structure MerkleTree where
  depth : Nat
  leaves : List (Nat × Nat)
  nodes : List ((Nat × Nat) × Nat)
  nextLeafIndex : Nat
deriving DecidableEq

/-- The MerklePath interface: sibling hashes and direction bits. -/
structure MerklePath where
  pathElements : List Nat
  pathIndices : List Nat
deriving DecidableEq

/-- The MerkleTree constructor: empty leaf map, empty cache, next index 0. -/
def MerkleTree.new (depth : Nat) : MerkleTree :=
  ⟨depth, [], [], 0⟩

/-- getLeaf: the stored value, or the zero leaf 0 when unset. -/
def MerkleTree.getLeaf (t : MerkleTree) (index : Nat) : Nat :=
  (mapGet t.leaves index).getD 0

/-- The loop body of _clearCacheForPath: delete the cached ancestor at
each level from 1 up to the depth. -/
def clearCacheLoop (leafIndex : Nat) :
    Nat → Nat → List ((Nat × Nat) × Nat) → List ((Nat × Nat) × Nat)
  | 0, _, m => m
  | fuel + 1, level, m =>
      clearCacheLoop leafIndex fuel (level + 1)
        (cacheDel m (level, leafIndex / 2 ^ level))

/-- Model of _clearCacheForPath: delete the cached ancestors
(level, leafIndex / 2^level) for level = 1 .. depth. -/
def clearCacheForPath (depth leafIndex : Nat) (m : List ((Nat × Nat) × Nat)) :
    List ((Nat × Nat) × Nat) :=
  clearCacheLoop leafIndex depth 1 m

/-- MerkleTree.insert: store the leaf at nextLeafIndex, bump the index,
invalidate the cached ancestors; returns the assigned index.  The source
performs no capacity check whatsoever. -/
def MerkleTree.insert (t : MerkleTree) (leaf : Nat) : Nat × MerkleTree :=
  let index := t.nextLeafIndex
  (index, { t with
    leaves := mapSet t.leaves index leaf,
    nodes := clearCacheForPath t.depth index t.nodes,
    nextLeafIndex := index + 1 })

/-- MerkleTree._getNode(index, level): leaf lookup at level 0; otherwise
consult the cache, short-circuit entirely-empty subtrees to the zero
hash, or recursively hash the two children and cache the result.  The
cache mutation is returned as the second component. -/
def getNode (hash2 : Nat → Nat → Nat) : Nat → MerkleTree → Nat → Nat × MerkleTree
  | 0, t, index => (t.getLeaf index, t)
  | level + 1, t, index =>
    match cacheGet t.nodes (level + 1, index) with
    | some v => (v, t)
    | none =>
      if t.nextLeafIndex ≤ index * 2 ^ (level + 1) then
        (zeros hash2 (level + 1), t)
      else
        let l := getNode hash2 level t (index * 2)
        let r := getNode hash2 level l.2 (index * 2 + 1)
        let v := hash2 l.1 r.1
        (v, { r.2 with nodes := cacheSet r.2.nodes (level + 1, index) v })

/-- MerkleTree.getRoot: the node at (index 0, level depth). -/
def MerkleTree.getRoot (hash2 : Nat → Nat → Nat) (t : MerkleTree) :
    Nat × MerkleTree :=
  getNode hash2 t.depth t 0

/-- The loop of MerkleTree.getProof: at each level record the direction
bit (currentIndex % 2) and the sibling value, then move to the parent. -/
def getProofLoop (hash2 : Nat → Nat → Nat) :
    Nat → Nat → Nat → MerkleTree → MerklePath × MerkleTree
  | 0, _, _, t => (⟨[], []⟩, t)
  | fuel + 1, level, currentIndex, t =>
    let isRight := currentIndex % 2
    let siblingIndex := if isRight = 1 then currentIndex - 1 else currentIndex + 1
    let s := getNode hash2 level t siblingIndex
    let rest := getProofLoop hash2 fuel (level + 1) (currentIndex / 2) s.2
    (⟨s.1 :: rest.1.pathElements, isRight :: rest.1.pathIndices⟩, rest.2)

/-- MerkleTree.getProof: run the sibling-collecting loop for depth levels. -/
def MerkleTree.getProof (hash2 : Nat → Nat → Nat) (t : MerkleTree)
    (leafIndex : Nat) : MerklePath × MerkleTree :=
  getProofLoop hash2 t.depth 0 leafIndex t

/-- The recombination loop of the static MerkleTree.verifyProof: fold
the current hash with each supplied sibling, ordering the two hash
inputs by the direction bit (a missing direction bit is JS undefined,
which is falsy, hence treated as "left child" = 0). -/
def computeRoot (hash2 : Nat → Nat → Nat) : List Nat → List Nat → Nat → Nat
  | [], _, cur => cur
  | sib :: sibs, idxs, cur =>
    let isRight := idxs.headD 0
    let next := if isRight = 0 then hash2 cur sib else hash2 sib cur
    computeRoot hash2 sibs idxs.tail next

/-- MerkleTree.verifyProof: recombine and compare with the expected root.
The loop runs over pathElements.length, not the tree depth. -/
def MerkleTree.verifyProof (hash2 : Nat → Nat → Nat) (leaf : Nat)
    (path : MerklePath) (root : Nat) : Bool :=
  computeRoot hash2 path.pathElements path.pathIndices leaf == root

/-- The cache-free mathematical value of the node (level, index) for a
given leaf map and next free index — the value _getNode is meant to
compute. -/
def specNode (hash2 : Nat → Nat → Nat) (leaves : List (Nat × Nat)) (next : Nat) :
    Nat → Nat → Nat
  | 0, index => (mapGet leaves index).getD 0
  | level + 1, index =>
    if next ≤ index * 2 ^ (level + 1) then zeros hash2 (level + 1)
    else
      hash2 (specNode hash2 leaves next level (index * 2))
        (specNode hash2 leaves next level (index * 2 + 1))

/-- The sibling values the proof loop collects, computed cache-free. -/
def specSibs (hash2 : Nat → Nat → Nat) (leaves : List (Nat × Nat)) (next : Nat) :
    Nat → Nat → Nat → List Nat
  | 0, _, _ => []
  | fuel + 1, level, index =>
    specNode hash2 leaves next level
        (if index % 2 = 1 then index - 1 else index + 1)
      :: specSibs hash2 leaves next fuel (level + 1) (index / 2)

/-- The direction bits the proof loop records. -/
def specBits : Nat → Nat → List Nat
  | 0, _ => []
  | fuel + 1, index => index % 2 :: specBits fuel (index / 2)

/-- UTF-8 encoding of one Unicode scalar value, as produced by the JS
TextEncoder used in field-encoding.ts. -/
def utf8Bytes (c : Nat) : List Nat :=
  if c < 128 then [c]
  else if c < 2048 then [192 + c / 64, 128 + c % 64]
  else if c < 65536 then [224 + c / 4096, 128 + c / 64 % 64, 128 + c % 64]
  else [240 + c / 262144, 128 + c / 4096 % 64, 128 + c / 64 % 64, 128 + c % 64]

/-- The UTF-8 byte sequence of a string. -/
def stringBytes (s : String) : List Nat :=
  s.data.foldr (fun c acc => utf8Bytes c.toNat ++ acc) []

/-- The byte-folding loop of stringToField: acc = acc * 256 + byte. -/
def bytesToNatBE (bs : List Nat) : Nat :=
  bs.foldl (fun acc b => acc * 256 + b) 0

/-- stringToField of field-encoding.ts: fold the UTF-8 bytes into an
integer and apply the single-input Poseidon hash. -/
def stringToField (hash1 : Nat → Nat) (s : String) : Nat :=
  hash1 (bytesToNatBE (stringBytes s))

/-- quoteIdToField: stringToField rendered as the decimal string that
the source returns and compares verbatim. -/
def quoteIdToField (hash1 : Nat → Nat) (s : String) : String :=
  toString (stringToField hash1 s)

/-- The value of a byte list read as a big-endian base-256 integer,
written positionally as the spec describes it. -/
def beValue : List Nat → Nat
  | [] => 0
  | b :: bs => b * 256 ^ bs.length + beValue bs

/-- The PaymentRequest of payment-service.ts (the mocked paymentMethod
field plays no role in the control flow and is omitted). -/
structure PaymentRequest where
  quoteId : String
  priceCents : Int
deriving DecidableEq

/-- The PaymentResponse of payment-service.ts. -/
structure PaymentResponse where
  success : Bool
  secret : Option Nat
  quoteId : Option String
  priceCents : Option Int
  root : Option Nat
  merklePath : Option MerklePath
  error : Option String
deriving DecidableEq

/-- PaymentService._generateSecret: fold the 32 random bytes into a
big-endian integer and reduce it modulo the BN128 scalar field prime. -/
def generateSecret (randomBytes : List Nat) : Nat :=
  (randomBytes.foldl (fun acc b => acc * 256 + b) 0) % fieldPrime

/-- PaymentService.processPayment.  The random byte source is passed in
as secretBytes; the initialized flag models the service-initialization
guard.  Validation mirrors the JS condition
(!quoteId || !priceCents || priceCents <= 0): the quote id is empty, or
the price is 0 (falsy) or non-positive. -/
def processPayment (hash1 : Nat → Nat) (hash2 : Nat → Nat → Nat)
    (hash3 : Nat → Nat → Nat → Nat) (secretBytes : List Nat)
    (initialized : Bool) (t : MerkleTree) (req : PaymentRequest) :
    PaymentResponse × MerkleTree :=
  if initialized = false then
    ({ success := false, secret := none, quoteId := none, priceCents := none,
       root := none, merklePath := none,
       error := some "Payment service not initialized" }, t)
  else if req.quoteId = "" ∨ req.priceCents = 0 ∨ req.priceCents ≤ 0 then
    ({ success := false, secret := none, quoteId := none, priceCents := none,
       root := none, merklePath := none,
       error := some "Invalid payment request" }, t)
  else
    let secret := generateSecret secretBytes
    let quoteIdField := stringToField hash1 req.quoteId
    let leaf := hash3 secret quoteIdField req.priceCents.toNat
    let ins := t.insert leaf
    let pr := MerkleTree.getProof hash2 ins.2 ins.1
    let rt := MerkleTree.getRoot hash2 pr.2
    ({ success := true, secret := some secret, quoteId := some req.quoteId,
       priceCents := some req.priceCents, root := some rt.1,
       merklePath := some pr.1, error := none }, rt.2)

/-- The ZKProofRequest of the payment proof verifier.  The opaque proof
object is consumed only by the external snarkjs verifier, which is
modelled by the proofValid oracle argument below. -/
structure ZKProofRequest where
  quoteId : String
  priceCents : Int
  root : String
  publicSignals : List String
deriving DecidableEq

/-- The ZKVerificationResult of the payment proof verifier. -/
structure ZKVerificationResult where
  valid : Bool
  error : Option String
deriving DecidableEq

/-- verifyPaymentProof of the verifier module bundled with
payment-service, stage by stage: verification-key presence, then the
snarkjs groth16 verification (the proofValid oracle), then the three
public-signal binding checks (JS destructuring of a short array yields
undefined, modelled by Option), then the comparison with the current
Accumulator root. -/
def verifyPaymentProof (hash1 : Nat → Nat) (vkLoaded proofValid : Bool)
    (currentRoot : String) (req : ZKProofRequest) : ZKVerificationResult :=
  if vkLoaded = false then ⟨false, some "Verification key not loaded"⟩
  else if proofValid = false then ⟨false, some "Invalid cryptographic proof"⟩
  else if req.publicSignals.get? 0 ≠ some req.root then
    ⟨false, some "Root mismatch in public signals"⟩
  else if req.publicSignals.get? 2 ≠ some (toString req.priceCents) then
    ⟨false, some "Price mismatch in public signals"⟩
  else if req.publicSignals.get? 1 ≠ some (quoteIdToField hash1 req.quoteId) then
    ⟨false, some "QuoteId mismatch in public signals"⟩
  else if req.root ≠ currentRoot then
    ⟨false, some "Root does not match current Payment Service root"⟩
  else ⟨true, none⟩

/-- The loosely-typed proof blob consumed by zk/proof-verifier.ts;
Option models JS undefined for absent components. -/
structure Groth16ProofBlob where
  pi_a : Option (List String)
  pi_b : Option (List (List String))
  pi_c : Option (List String)
  protocol : Option String
  curve : Option String
deriving DecidableEq

/-- verifyTicketProof of zk/proof-verifier.ts: throw when the
verification key file is missing, then the structural checks in source
order (proof present, publicSignals arity 4, pi components present,
protocol and curve tags, every signal numeric per the isNum predicate
modelling !isNaN(Number(s))), and only then the snarkjs verification,
modelled by the snarkResult oracle. -/
def verifyTicketProof (isNum : String → Bool) (vkExists snarkResult : Bool)
    (proofBlob : Option Groth16ProofBlob) (publicSignals : List String) :
    Except String Bool :=
  if vkExists = false then .error "Verification key not found"
  else
    match proofBlob with
    | none => .ok false
    | some pf =>
      if publicSignals.length ≠ 4 then .ok false
      else if pf.pi_a = none then .ok false
      else if pf.pi_b = none then .ok false
      else if pf.pi_c = none then .ok false
      else if pf.protocol ≠ some "groth16" then .ok false
      else if pf.curve ≠ some "bn128" then .ok false
      else if publicSignals.any (fun s => !isNum s) then .ok false
      else .ok snarkResult

/-- The conjunction of the structural checks of verifyTicketProof, as
one boolean predicate. -/
def structValid (isNum : String → Bool) (proofBlob : Option Groth16ProofBlob)
    (publicSignals : List String) : Bool :=
  match proofBlob with
  | none => false
  | some pf =>
    publicSignals.length == 4 && pf.pi_a.isSome && pf.pi_b.isSome &&
      pf.pi_c.isSome && pf.protocol == some "groth16" &&
      pf.curve == some "bn128" && publicSignals.all isNum

/-- A client-visible operation on the Merkle Accumulator: an insertion,
a proof query, or a root query (the queries mutate only the node cache). -/
inductive TreeOp where
  | ins (v : Nat)
  | proofQ (i : Nat)
  | rootQ
deriving DecidableEq

/-- Run one operation, keeping the state it leaves behind. -/
def applyOp (hash2 : Nat → Nat → Nat) (t : MerkleTree) : TreeOp → MerkleTree
  | .ins v => (t.insert v).2
  | .proofQ i => (t.getProof hash2 i).2
  | .rootQ => (t.getRoot hash2).2

/-- Run a whole operation trace. -/
def applyOps (hash2 : Nat → Nat → Nat) (t : MerkleTree) (ops : List TreeOp) :
    MerkleTree :=
  ops.foldl (applyOp hash2) t

/-- The ordered list of leaves inserted by a trace. -/
def insertsOf (ops : List TreeOp) : List Nat :=
  ops.filterMap (fun op => match op with | .ins v => some v | _ => none)

/-- The leaf map produced by inserting the given leaves at consecutive
indices starting from start. -/
def buildLeaves (m : List (Nat × Nat)) (start : Nat) : List Nat → List (Nat × Nat)
  | [] => m
  | v :: vs => buildLeaves (mapSet m start v) (start + 1) vs

/-- A concrete injective two-input hash (shifted Cantor pairing), used to
evaluate the development on explicit inputs. -/
def pairHash (a b : Nat) : Nat :=
  (a + b) * (a + b + 1) / 2 + b + 1

/-- A concrete single-input hash for explicit evaluation. -/
def idHash (a : Nat) : Nat := a + 1

/-- A concrete three-input hash for explicit evaluation. -/
def tripleHash (a b c : Nat) : Nat := pairHash a (pairHash b c)

theorem cacheGet_cacheSet (m : List ((Nat × Nat) × Nat)) (k : Nat × Nat) (v : Nat)
    (q : Nat × Nat) :
    cacheGet (cacheSet m k v) q = if k = q then some v else cacheGet m q := rfl

theorem cacheGet_cacheDel (m : List ((Nat × Nat) × Nat)) (k q : Nat × Nat) :
    cacheGet (cacheDel m k) q = if q = k then none else cacheGet m q := by
  induction m with
  | nil => by_cases h : q = k <;> simp [cacheDel, cacheGet, h]
  | cons kv rest ih =>
    simp only [cacheDel]
    by_cases h1 : kv.1 = k
    · rw [if_pos h1, ih]
      by_cases h2 : q = k
      · rw [if_pos h2, if_pos h2]
      · have h3 : kv.1 ≠ q := by rw [h1]; exact fun hh => h2 hh.symm
        rw [if_neg h2, if_neg h2]
        simp only [cacheGet]
        rw [if_neg h3]
    · rw [if_neg h1]
      simp only [cacheGet]
      by_cases h3 : kv.1 = q
      · have h2 : q ≠ k := fun hh => h1 (h3.trans hh)
        rw [if_pos h3, if_neg h2, if_pos h3]
      · rw [if_neg h3, if_neg h3, ih]

theorem mapGet_mapSet (m : List (Nat × Nat)) (k v q : Nat) :
    mapGet (mapSet m k v) q = if k = q then some v else mapGet m q := rfl

theorem mapGet_buildLeaves_low :
    ∀ (ls : List Nat) (m : List (Nat × Nat)) (start k : Nat), k < start →
      mapGet (buildLeaves m start ls) k = mapGet m k := by
  intro ls
  induction ls with
  | nil => intro m start k _; rfl
  | cons v vs ih =>
    intro m start k hk
    simp only [buildLeaves]
    rw [ih _ _ _ (Nat.lt_succ_of_lt hk), mapGet_mapSet, if_neg (by omega)]

theorem mapGet_buildLeaves_high :
    ∀ (ls : List Nat) (m : List (Nat × Nat)) (start k : Nat),
      start + ls.length ≤ k →
      mapGet (buildLeaves m start ls) k = mapGet m k := by
  intro ls
  induction ls with
  | nil => intro m start k _; rfl
  | cons v vs ih =>
    intro m start k hk
    have hk' : start + 1 + vs.length ≤ k := by
      simp only [List.length_cons] at hk; omega
    simp only [buildLeaves]
    rw [ih _ _ _ hk', mapGet_mapSet, if_neg (by omega)]

theorem mapGet_buildLeaves_mid :
    ∀ (ls : List Nat) (m : List (Nat × Nat)) (start k : Nat),
      start ≤ k → k < start + ls.length →
      mapGet (buildLeaves m start ls) k = ls.get? (k - start) := by
  intro ls
  induction ls with
  | nil =>
    intro m start k h1 h2
    simp only [List.length_nil] at h2; omega
  | cons v vs ih =>
    intro m start k h1 h2
    simp only [buildLeaves]
    rcases Nat.eq_or_lt_of_le h1 with he | hlt
    · rw [mapGet_buildLeaves_low vs _ _ _ (by omega), mapGet_mapSet,
        if_pos he, ← he]
      simp
    · have h2' : k < start + 1 + vs.length := by
        simp only [List.length_cons] at h2; omega
      rw [ih _ _ _ (by omega) h2']
      have hsub : k - start = (k - (start + 1)) + 1 := by omega
      rw [hsub]
      rfl

/-- Well-formedness of the leaf map relative to the next free index:
every stored leaf sits strictly below nextLeafIndex.  Holds for every
tree built through the public interface. -/
def LeavesWF (leaves : List (Nat × Nat)) (next : Nat) : Prop :=
  ∀ k v, mapGet leaves k = some v → k < next

theorem leavesWF_buildLeaves (ls : List Nat) :
    LeavesWF (buildLeaves [] 0 ls) ls.length := by
  intro k v h
  by_contra hk
  rw [mapGet_buildLeaves_high ls [] 0 k (by omega)] at h
  simp [mapGet] at h

theorem specNode_of_empty (hash2 : Nat → Nat → Nat) (leaves : List (Nat × Nat))
    (next : Nat) (hwf : LeavesWF leaves next) :
    ∀ level index, next ≤ index * 2 ^ level →
      specNode hash2 leaves next level index = zeros hash2 level := by
  intro level
  induction level with
  | zero =>
    intro index h
    simp only [specNode, zeros]
    cases hm : mapGet leaves index with
    | none => rfl
    | some v =>
      have := hwf index v hm
      simp only [pow_zero, mul_one] at h
      omega
  | succ l _ =>
    intro index h
    simp only [specNode]
    rw [if_pos h]

theorem specNode_succ (hash2 : Nat → Nat → Nat) (leaves : List (Nat × Nat))
    (next : Nat) (hwf : LeavesWF leaves next) (level index : Nat) :
    specNode hash2 leaves next (level + 1) index
      = hash2 (specNode hash2 leaves next level (index * 2))
          (specNode hash2 leaves next level (index * 2 + 1)) := by
  by_cases h : next ≤ index * 2 ^ (level + 1)
  · have heq : index * 2 * 2 ^ level = index * 2 ^ (level + 1) := by
      rw [pow_succ]; ring
    have hL : next ≤ index * 2 * 2 ^ level := by omega
    have hR : next ≤ (index * 2 + 1) * 2 ^ level :=
      le_trans hL (Nat.mul_le_mul_right _ (by omega))
    rw [specNode_of_empty hash2 leaves next hwf level _ hL,
        specNode_of_empty hash2 leaves next hwf level _ hR]
    simp only [specNode]
    rw [if_pos h]
    rfl
  · simp only [specNode]
    rw [if_neg h]

theorem specNode_insert_ne (hash2 : Nat → Nat → Nat) (leaves : List (Nat × Nat))
    (n leaf : Nat) :
    ∀ level index, index ≠ n / 2 ^ level →
      specNode hash2 (mapSet leaves n leaf) (n + 1) level index
        = specNode hash2 leaves n level index := by
  intro level
  induction level with
  | zero =>
    intro index h
    rw [pow_zero, Nat.div_one] at h
    simp only [specNode, mapGet_mapSet]
    rw [if_neg (fun hh => h hh.symm)]
  | succ l ih =>
    intro index h
    by_cases hnew : n + 1 ≤ index * 2 ^ (l + 1)
    · have hold : n ≤ index * 2 ^ (l + 1) := by omega
      simp only [specNode]
      rw [if_pos hnew, if_pos hold]
    · have hne : index * 2 ^ (l + 1) ≠ n := by
        intro he
        apply h
        rw [← he, Nat.mul_div_cancel _ (Nat.pos_pow_of_pos _ (by norm_num))]
      have hold : ¬ n ≤ index * 2 ^ (l + 1) := by omega
      have hdd : n / 2 ^ l / 2 = n / 2 ^ (l + 1) := by
        rw [Nat.div_div_eq_div_mul, ← pow_succ]
      have h1 : index * 2 ≠ n / 2 ^ l := by
        intro he
        apply h
        rw [← hdd, ← he, Nat.mul_div_cancel _ (by norm_num : (0:Nat) < 2)]
      have h2 : index * 2 + 1 ≠ n / 2 ^ l := by
        intro he
        apply h
        rw [← hdd, ← he]
        omega
      simp only [specNode]
      rw [if_neg hnew, if_neg hold, ih _ h1, ih _ h2]

/-- The cache invariant: every cached entry sits at a level between 1
and the depth and holds exactly the cache-free value of its node. -/
def ValidCache (hash2 : Nat → Nat → Nat) (t : MerkleTree) : Prop :=
  ∀ l i v, cacheGet t.nodes (l, i) = some v →
    1 ≤ l ∧ l ≤ t.depth ∧ v = specNode hash2 t.leaves t.nextLeafIndex l i

theorem getNode_spec (hash2 : Nat → Nat → Nat) :
    ∀ (level : Nat) (t : MerkleTree) (index : Nat),
      ValidCache hash2 t → level ≤ t.depth →
      (getNode hash2 level t index).1
          = specNode hash2 t.leaves t.nextLeafIndex level index
        ∧ (getNode hash2 level t index).2.depth = t.depth
        ∧ (getNode hash2 level t index).2.leaves = t.leaves
        ∧ (getNode hash2 level t index).2.nextLeafIndex = t.nextLeafIndex
        ∧ ValidCache hash2 (getNode hash2 level t index).2 := by
  intro level
  induction level with
  | zero =>
    intro t index hv _
    exact ⟨rfl, rfl, rfl, rfl, hv⟩
  | succ l ih =>
    intro t index hv hle
    cases hc : cacheGet t.nodes (l + 1, index) with
    | some v =>
      obtain ⟨-, -, hval⟩ := hv (l + 1) index v hc
      simp only [getNode, hc]
      refine ⟨hval, ?_, ?_, ?_, hv⟩ <;> trivial
    | none =>
      by_cases hemp : t.nextLeafIndex ≤ index * 2 ^ (l + 1)
      · simp only [getNode, hc, if_pos hemp]
        refine ⟨?_, ?_, ?_, ?_, hv⟩
        · simp only [specNode]
          rw [if_pos hemp]
        · trivial
        · trivial
        · trivial
      · obtain ⟨hl1, hl2, hl3, hl4, hl5⟩ := ih t (index * 2) hv (by omega)
        obtain ⟨hr1, hr2, hr3, hr4, hr5⟩ :=
          ih (getNode hash2 l t (index * 2)).2 (index * 2 + 1) hl5
            (by rw [hl2]; omega)
        rw [hl3, hl4] at hr1
        simp only [getNode, hc, if_neg hemp]
        refine ⟨?_, ?_, ?_, ?_, ?_⟩
        · rw [hl1, hr1]
          simp only [specNode]
          rw [if_neg hemp]
        · rw [hr2, hl2]
        · rw [hr3, hl3]
        · rw [hr4, hl4]
        · intro l' i' v' h'
          rw [cacheGet_cacheSet] at h'
          by_cases hk : ((l + 1, index) : Nat × Nat) = (l', i')
          · rw [if_pos hk] at h'
            obtain ⟨hk1, hk2⟩ := Prod.mk.injEq .. ▸ hk
            refine ⟨by omega, ?_, ?_⟩
            · show l' ≤ (MerkleTree.mk _ _ _ _).depth
              simp only [hr2, hl2]
              omega
            · have hv' : v' = hash2 (getNode hash2 l t (index * 2)).1
                  (getNode hash2 l (getNode hash2 l t (index * 2)).2
                    (index * 2 + 1)).1 := by
                cases h'
                rfl
              show v' = specNode hash2 _ _ l' i'
              simp only [hr3, hl3, hr4, hl4, ← hk1, ← hk2]
              rw [hv', hl1, hr1]
              simp only [specNode]
              rw [if_neg hemp]
          · rw [if_neg hk] at h'
            obtain ⟨hb1, hb2, hb3⟩ := hr5 l' i' v' h'
            refine ⟨hb1, ?_, ?_⟩
            · show l' ≤ (MerkleTree.mk _ _ _ _).depth
              simp only [hr2, hl2]
              rw [hr2, hl2] at hb2
              exact hb2
            · show v' = specNode hash2 _ _ l' i'
              simp only [hr3, hl3, hr4, hl4]
              rw [hr3, hl3, hr4, hl4] at hb3
              exact hb3

theorem clearCacheLoop_some (n : Nat) :
    ∀ (fuel level : Nat) (m : List ((Nat × Nat) × Nat)) (k : Nat × Nat) (v : Nat),
      cacheGet (clearCacheLoop n fuel level m) k = some v →
      cacheGet m k = some v ∧
        ∀ j, j < fuel → k ≠ (level + j, n / 2 ^ (level + j)) := by
  intro fuel
  induction fuel with
  | zero =>
    intro level m k v h
    exact ⟨h, fun j hj => absurd hj (Nat.not_lt_zero j)⟩
  | succ f ih =>
    intro level m k v h
    obtain ⟨h1, h2⟩ := ih (level + 1) (cacheDel m (level, n / 2 ^ level)) k v h
    rw [cacheGet_cacheDel] at h1
    by_cases hk : k = (level, n / 2 ^ level)
    · rw [if_pos hk] at h1; cases h1
    · rw [if_neg hk] at h1
      refine ⟨h1, fun j hj => ?_⟩
      cases j with
      | zero => simpa using hk
      | succ j' =>
        have := h2 j' (by omega)
        have harith : level + (j' + 1) = level + 1 + j' := by omega
        rw [harith]
        exact this

theorem insert_validCache (hash2 : Nat → Nat → Nat) (t : MerkleTree) (leaf : Nat)
    (hv : ValidCache hash2 t) : ValidCache hash2 (t.insert leaf).2 := by
  intro l i v h
  simp only [MerkleTree.insert, clearCacheForPath] at h ⊢
  obtain ⟨h1, h2⟩ := clearCacheLoop_some t.nextLeafIndex t.depth 1 t.nodes (l, i) v h
  obtain ⟨hb1, hb2, hb3⟩ := hv l i v h1
  refine ⟨hb1, hb2, ?_⟩
  have hne : i ≠ t.nextLeafIndex / 2 ^ l := by
    have := h2 (l - 1) (by omega)
    have harith : 1 + (l - 1) = l := by omega
    rw [harith] at this
    intro he
    exact this (by rw [he])
  rw [specNode_insert_ne hash2 t.leaves t.nextLeafIndex leaf l i hne]
  exact hb3

theorem getProofLoop_spec (hash2 : Nat → Nat → Nat) :
    ∀ (fuel level index : Nat) (t : MerkleTree),
      ValidCache hash2 t → level + fuel ≤ t.depth →
      (getProofLoop hash2 fuel level index t).1
          = ⟨specSibs hash2 t.leaves t.nextLeafIndex fuel level index,
             specBits fuel index⟩
        ∧ (getProofLoop hash2 fuel level index t).2.depth = t.depth
        ∧ (getProofLoop hash2 fuel level index t).2.leaves = t.leaves
        ∧ (getProofLoop hash2 fuel level index t).2.nextLeafIndex
            = t.nextLeafIndex
        ∧ ValidCache hash2 (getProofLoop hash2 fuel level index t).2 := by
  intro fuel
  induction fuel with
  | zero =>
    intro level index t hv _
    exact ⟨rfl, rfl, rfl, rfl, hv⟩
  | succ f ih =>
    intro level index t hv hle
    obtain ⟨hs1, hs2, hs3, hs4, hs5⟩ :=
      getNode_spec hash2 level t
        (if index % 2 = 1 then index - 1 else index + 1) hv (by omega)
    obtain ⟨hp1, hp2, hp3, hp4, hp5⟩ :=
      ih (level + 1) (index / 2)
        (getNode hash2 level t (if index % 2 = 1 then index - 1 else index + 1)).2
        hs5 (by rw [hs2]; omega)
    rw [hs3, hs4] at hp1
    simp only [getProofLoop]
    refine ⟨?_, ?_, ?_, ?_, ?_⟩
    · simp only [hp1, hs1, specSibs, specBits]
    · rw [hp2, hs2]
    · rw [hp3, hs3]
    · rw [hp4, hs4]
    · exact hp5

theorem getRoot_spec (hash2 : Nat → Nat → Nat) (t : MerkleTree)
    (hv : ValidCache hash2 t) :
    (t.getRoot hash2).1 = specNode hash2 t.leaves t.nextLeafIndex t.depth 0
      ∧ (t.getRoot hash2).2.depth = t.depth
      ∧ (t.getRoot hash2).2.leaves = t.leaves
      ∧ (t.getRoot hash2).2.nextLeafIndex = t.nextLeafIndex
      ∧ ValidCache hash2 (t.getRoot hash2).2 :=
  getNode_spec hash2 t.depth t 0 hv (le_refl _)

theorem getProof_spec (hash2 : Nat → Nat → Nat) (t : MerkleTree) (i : Nat)
    (hv : ValidCache hash2 t) :
    (t.getProof hash2 i).1
        = ⟨specSibs hash2 t.leaves t.nextLeafIndex t.depth 0 i,
           specBits t.depth i⟩
      ∧ (t.getProof hash2 i).2.depth = t.depth
      ∧ (t.getProof hash2 i).2.leaves = t.leaves
      ∧ (t.getProof hash2 i).2.nextLeafIndex = t.nextLeafIndex
      ∧ ValidCache hash2 (t.getProof hash2 i).2 :=
  getProofLoop_spec hash2 t.depth 0 i t hv (by omega)

/-- The state invariant tying a tree reached through the public
interface to the ordered list of leaves inserted so far. -/
def TreeInv (hash2 : Nat → Nat → Nat) (d : Nat) (ls : List Nat)
    (t : MerkleTree) : Prop :=
  ValidCache hash2 t ∧ t.depth = d ∧ t.leaves = buildLeaves [] 0 ls
    ∧ t.nextLeafIndex = ls.length

theorem buildLeaves_append :
    ∀ (ls : List Nat) (m : List (Nat × Nat)) (start v : Nat),
      buildLeaves m start (ls ++ [v])
        = mapSet (buildLeaves m start ls) (start + ls.length) v := by
  intro ls
  induction ls with
  | nil => intro m start v; simp [buildLeaves]
  | cons w ws ih =>
    intro m start v
    have hstep : buildLeaves m start ((w :: ws) ++ [v])
        = buildLeaves (mapSet m start w) (start + 1) (ws ++ [v]) := rfl
    rw [hstep, ih]
    have harith : start + 1 + ws.length = start + (w :: ws).length := by
      simp only [List.length_cons]; omega
    rw [harith]
    rfl

theorem treeInv_new (hash2 : Nat → Nat → Nat) (d : Nat) :
    TreeInv hash2 d [] (MerkleTree.new d) := by
  refine ⟨?_, rfl, rfl, rfl⟩
  intro l i v h
  simp [MerkleTree.new, cacheGet] at h

theorem treeInv_insert (hash2 : Nat → Nat → Nat) (d : Nat) (ls : List Nat)
    (t : MerkleTree) (v : Nat) (h : TreeInv hash2 d ls t) :
    TreeInv hash2 d (ls ++ [v]) (t.insert v).2 := by
  obtain ⟨hv, hd, hl, hn⟩ := h
  refine ⟨insert_validCache hash2 t v hv, hd, ?_, ?_⟩
  · show mapSet t.leaves t.nextLeafIndex v = buildLeaves [] 0 (ls ++ [v])
    rw [buildLeaves_append, hl, hn]
    simp
  · show t.nextLeafIndex + 1 = (ls ++ [v]).length
    rw [hn]
    simp

theorem treeInv_applyOp (hash2 : Nat → Nat → Nat) (d : Nat) (ls : List Nat)
    (t : MerkleTree) (op : TreeOp) (h : TreeInv hash2 d ls t) :
    TreeInv hash2 d (ls ++ insertsOf [op]) (applyOp hash2 t op) := by
  cases op with
  | ins v => exact treeInv_insert hash2 d ls t v h
  | proofQ i =>
    obtain ⟨hv, hd, hl, hn⟩ := h
    obtain ⟨-, h2, h3, h4, h5⟩ := getProof_spec hash2 t i hv
    simp only [applyOp, insertsOf, List.filterMap, List.append_nil]
    exact ⟨h5, h2.trans hd, h3.trans hl, h4.trans hn⟩
  | rootQ =>
    obtain ⟨hv, hd, hl, hn⟩ := h
    obtain ⟨-, h2, h3, h4, h5⟩ := getRoot_spec hash2 t hv
    simp only [applyOp, insertsOf, List.filterMap, List.append_nil]
    exact ⟨h5, h2.trans hd, h3.trans hl, h4.trans hn⟩

theorem treeInv_applyOps (hash2 : Nat → Nat → Nat) (d : Nat) :
    ∀ (ops : List TreeOp) (ls : List Nat) (t : MerkleTree),
      TreeInv hash2 d ls t →
      TreeInv hash2 d (ls ++ insertsOf ops) (applyOps hash2 t ops) := by
  intro ops
  induction ops with
  | nil =>
    intro ls t h
    simpa [applyOps, insertsOf] using h
  | cons op rest ih =>
    intro ls t h
    have h1 := treeInv_applyOp hash2 d ls t op h
    have h2 := ih (ls ++ insertsOf [op]) (applyOp hash2 t op) h1
    have harr : ls ++ insertsOf [op] ++ insertsOf rest
        = ls ++ insertsOf (op :: rest) := by
      cases op <;> simp [insertsOf, List.filterMap]
    rw [harr] at h2
    simpa [applyOps, List.foldl] using h2

theorem treeInv_trace (hash2 : Nat → Nat → Nat) (d : Nat) (ops : List TreeOp) :
    TreeInv hash2 d (insertsOf ops) (applyOps hash2 (MerkleTree.new d) ops) := by
  have := treeInv_applyOps hash2 d ops [] (MerkleTree.new d)
    (treeInv_new hash2 d)
  simpa using this

/-- The root of any trace-built tree is the cache-free root of its
insert sequence: the node cache never leaks into the result. -/
theorem getRoot_trace (hash2 : Nat → Nat → Nat) (d : Nat) (ops : List TreeOp) :
    ((applyOps hash2 (MerkleTree.new d) ops).getRoot hash2).1
      = specNode hash2 (buildLeaves [] 0 (insertsOf ops))
          (insertsOf ops).length d 0 := by
  obtain ⟨hv, hd, hl, hn⟩ := treeInv_trace hash2 d ops
  obtain ⟨h1, -, -, -, -⟩ :=
    getRoot_spec hash2 (applyOps hash2 (MerkleTree.new d) ops) hv
  rw [h1, hd, hl, hn]

theorem computeRoot_specSibs (hash2 : Nat → Nat → Nat)
    (leaves : List (Nat × Nat)) (next : Nat) (hwf : LeavesWF leaves next) :
    ∀ (fuel level index : Nat),
      computeRoot hash2 (specSibs hash2 leaves next fuel level index)
          (specBits fuel index)
          (specNode hash2 leaves next level index)
        = specNode hash2 leaves next (level + fuel) (index / 2 ^ fuel) := by
  intro fuel
  induction fuel with
  | zero =>
    intro level index
    simp [specSibs, specBits, computeRoot]
  | succ f ih =>
    intro level index
    simp only [specSibs, specBits, computeRoot, List.headD, List.tail]
    have hsplit : index % 2 = 0 ∨ index % 2 = 1 := by omega
    have hdiv : index / 2 / 2 ^ f = index / 2 ^ (f + 1) := by
      rw [Nat.div_div_eq_div_mul]
      congr 1
      rw [pow_succ]
      ring
    have harith : level + 1 + f = level + (f + 1) := by omega
    rcases hsplit with hm | hm
    · rw [if_pos hm, if_neg (show ¬ index % 2 = 1 by omega)]
      have hidx : index / 2 * 2 = index := by omega
      have hstep : hash2 (specNode hash2 leaves next level index)
          (specNode hash2 leaves next level (index + 1))
            = specNode hash2 leaves next (level + 1) (index / 2) := by
        rw [specNode_succ hash2 leaves next hwf level (index / 2), hidx]
      rw [hstep, ih (level + 1) (index / 2), hdiv, harith]
    · rw [if_neg (show ¬ index % 2 = 0 by omega), if_pos hm]
      have hidx : index / 2 * 2 = index - 1 := by omega
      have hstep : hash2 (specNode hash2 leaves next level (index - 1))
          (specNode hash2 leaves next level index)
            = specNode hash2 leaves next (level + 1) (index / 2) := by
        rw [specNode_succ hash2 leaves next hwf level (index / 2), hidx]
        have h2 : index - 1 + 1 = index := by omega
        rw [h2]
      rw [hstep, ih (level + 1) (index / 2), hdiv, harith]

theorem specSibs_take (hash2 : Nat → Nat → Nat) (leaves : List (Nat × Nat))
    (next : Nat) :
    ∀ (fuel k level index : Nat), k ≤ fuel →
      (specSibs hash2 leaves next fuel level index).take k
        = specSibs hash2 leaves next k level index := by
  intro fuel
  induction fuel with
  | zero =>
    intro k level index hk
    have : k = 0 := by omega
    subst this
    rfl
  | succ f ih =>
    intro k level index hk
    cases k with
    | zero => rfl
    | succ q =>
      simp only [specSibs, List.take_succ_cons]
      rw [ih q (level + 1) (index / 2) (by omega)]

theorem specBits_take :
    ∀ (fuel k index : Nat), k ≤ fuel →
      (specBits fuel index).take k = specBits k index := by
  intro fuel
  induction fuel with
  | zero =>
    intro k index hk
    have : k = 0 := by omega
    subst this
    rfl
  | succ f ih =>
    intro k index hk
    cases k with
    | zero => rfl
    | succ q =>
      simp only [specBits, List.take_succ_cons]
      rw [ih q (index / 2) (by omega)]

theorem foldl_beValue (bs : List Nat) :
    ∀ acc, bs.foldl (fun a b => a * 256 + b) acc
      = acc * 256 ^ bs.length + beValue bs := by
  induction bs with
  | nil => intro acc; simp [beValue]
  | cons b rest ih =>
    intro acc
    simp only [List.foldl, beValue, List.length_cons]
    rw [ih (acc * 256 + b)]
    ring

theorem bytesToNatBE_eq_beValue (bs : List Nat) : bytesToNatBE bs = beValue bs := by
  simp only [bytesToNatBE]
  rw [foldl_beValue]
  simp

theorem any_not_eq_not_all (p : String → Bool) :
    ∀ l : List String, l.any (fun s => !p s) = !l.all p := by
  intro l
  induction l with
  | nil => rfl
  | cons x xs ih => simp [List.any, List.all, ih, Bool.not_and]

theorem insertsOf_append (ops1 ops2 : List TreeOp) :
    insertsOf (ops1 ++ ops2) = insertsOf ops1 ++ insertsOf ops2 := by
  simp [insertsOf, List.filterMap_append]

theorem applyOps_append (hash2 : Nat → Nat → Nat) (t : MerkleTree)
    (ops1 ops2 : List TreeOp) :
    applyOps hash2 t (ops1 ++ ops2)
      = applyOps hash2 (applyOps hash2 t ops1) ops2 := by
  simp [applyOps, List.foldl_append]

/-- Shared round-trip core: in a trace-built tree, the proof for any
position below the capacity recombines to the current root. -/
theorem verify_trace (hash2 : Nat → Nat → Nat) (d : Nat) (ops : List TreeOp)
    (i : Nat) (hi : i < 2 ^ d) :
    MerkleTree.verifyProof hash2
        ((applyOps hash2 (MerkleTree.new d) ops).getLeaf i)
        (((applyOps hash2 (MerkleTree.new d) ops).getProof hash2 i)).1
        ((((applyOps hash2 (MerkleTree.new d) ops).getProof hash2 i)).2.getRoot hash2).1
      = true := by
  obtain ⟨hv, hd, hl, hn⟩ := treeInv_trace hash2 d ops
  set t := applyOps hash2 (MerkleTree.new d) ops with ht
  obtain ⟨hp1, hp2, hp3, hp4, hp5⟩ := getProof_spec hash2 t i hv
  obtain ⟨hr1, -, -, -, -⟩ := getRoot_spec hash2 (t.getProof hash2 i).2 hp5
  rw [hp2, hp3, hp4] at hr1
  have hwf : LeavesWF t.leaves t.nextLeafIndex := by
    rw [hl, hn]
    exact leavesWF_buildLeaves _
  simp only [MerkleTree.verifyProof, hp1, hr1]
  have hfold := computeRoot_specSibs hash2 t.leaves t.nextLeafIndex hwf t.depth 0 i
  simp only [zero_add] at hfold
  have hgetLeaf : t.getLeaf i = specNode hash2 t.leaves t.nextLeafIndex 0 i := rfl
  rw [hgetLeaf, hfold]
  have hzero : i / 2 ^ t.depth = 0 := Nat.div_eq_of_lt (by rw [hd]; exact hi)
  rw [hzero]
  exact beq_self_eq_true _

theorem structValid_iff (isNum : String → Bool) (pf : Groth16ProofBlob)
    (sigs : List String) :
    structValid isNum (some pf) sigs = true ↔
      (sigs.length = 4 ∧ pf.pi_a ≠ none ∧ pf.pi_b ≠ none ∧ pf.pi_c ≠ none
        ∧ pf.protocol = some "groth16" ∧ pf.curve = some "bn128"
        ∧ sigs.all isNum = true) := by
  simp only [structValid, Bool.and_eq_true, beq_iff_eq,
    Option.isSome_iff_ne_none]
  tauto

/-- When the structural checks pass, verifyTicketProof returns exactly
the verdict of the native verification. -/
theorem verifyTicketProof_structOk (isNum : String → Bool) (s : Bool)
    (pb : Option Groth16ProofBlob) (sigs : List String)
    (h : structValid isNum pb sigs = true) :
    verifyTicketProof isNum true s pb sigs = Except.ok s := by
  cases pb with
  | none => simp [structValid] at h
  | some pf =>
    obtain ⟨hlen, ha, hb, hc, hproto, hcurve, hall⟩ :=
      (structValid_iff isNum pf sigs).mp h
    have hany : (sigs.any fun x => !isNum x) = false := by
      rw [any_not_eq_not_all, hall]
      rfl
    simp only [verifyTicketProof]
    rw [if_neg (by simp : ¬ (true = false)), if_neg (not_not_intro hlen),
      if_neg ha, if_neg hb, if_neg hc, if_neg (not_not_intro hproto),
      if_neg (not_not_intro hcurve), if_neg (by rw [hany]; simp)]

/-- When any structural check fails, verifyTicketProof returns false no
matter what the native verification would have said: the structural
stage precedes and short-circuits it. -/
theorem verifyTicketProof_structBad (isNum : String → Bool) (s : Bool)
    (pb : Option Groth16ProofBlob) (sigs : List String)
    (h : structValid isNum pb sigs = false) :
    verifyTicketProof isNum true s pb sigs = Except.ok false := by
  cases pb with
  | none => rfl
  | some pf =>
    simp only [verifyTicketProof]
    rw [if_neg (by simp : ¬ (true = false))]
    split_ifs <;> try rfl
    exfalso
    rename_i h1 h2 h3 h4 h5 h6 h7
    have hall : sigs.all isNum = true := by
      have hh := any_not_eq_not_all isNum sigs
      cases hallc : sigs.all isNum
      · rw [hallc] at hh
        simp only [Bool.not_false] at hh
        exact absurd hh h7
      · rfl
    have hgood : structValid isNum (some pf) sigs = true := by
      rw [structValid_iff]
      exact ⟨not_not.mp h1, h2, h3, h4, not_not.mp h5, not_not.mp h6, hall⟩
    rw [h] at hgood
    cases hgood

/-- C2: MerkleTree.insert performs no capacity check: on a full depth-1
tree (nextLeafIndex = 2 = 2^depth) a further insert succeeds silently,
returns index 2, records the leaf, and raises no error of any kind — and
the out-of-range leaf never even reaches the root.  The spec requires a
distinguishable fatal capacity error here, so this is a code bug. -/
theorem merkleInsert_no_capacity_check :
    (applyOps pairHash (MerkleTree.new 1)
        [TreeOp.ins 5, TreeOp.ins 6]).nextLeafIndex
      = 2 ^ (applyOps pairHash (MerkleTree.new 1)
          [TreeOp.ins 5, TreeOp.ins 6]).depth
    ∧ ((applyOps pairHash (MerkleTree.new 1)
        [TreeOp.ins 5, TreeOp.ins 6]).insert 7).1 = 2
    ∧ ((applyOps pairHash (MerkleTree.new 1)
        [TreeOp.ins 5, TreeOp.ins 6]).insert 7).2.nextLeafIndex = 3
    ∧ mapGet ((applyOps pairHash (MerkleTree.new 1)
        [TreeOp.ins 5, TreeOp.ins 6]).insert 7).2.leaves 2 = some 7
    ∧ (MerkleTree.getRoot pairHash ((applyOps pairHash (MerkleTree.new 1)
        [TreeOp.ins 5, TreeOp.ins 6]).insert 7).2).1
        = (MerkleTree.getRoot pairHash (applyOps pairHash (MerkleTree.new 1)
            [TreeOp.ins 5, TreeOp.ins 6])).1 := by
  decide

/-- C3 (amended): in any tree reached by inserts and queries whose
insert count stays within the 2^depth capacity, the proof round-trip
holds at every occupied index i: verifyProof(leaf_i, getProof(i),
getRoot()) is true, and leaf_i is the i-th inserted value.  (Without the
capacity bound the claim fails, see the counterexample.) -/
theorem proof_roundTrip_within_capacity (hash2 : Nat → Nat → Nat) (d : Nat)
    (ops : List TreeOp) (i : Nat)
    (hcap : (insertsOf ops).length ≤ 2 ^ d)
    (hi : i < (insertsOf ops).length) :
    MerkleTree.verifyProof hash2
        ((applyOps hash2 (MerkleTree.new d) ops).getLeaf i)
        (((applyOps hash2 (MerkleTree.new d) ops).getProof hash2 i)).1
        ((((applyOps hash2 (MerkleTree.new d) ops).getProof hash2 i)).2.getRoot
          hash2).1
      = true
    ∧ (applyOps hash2 (MerkleTree.new d) ops).getLeaf i
        = ((insertsOf ops).get? i).getD 0 := by
  constructor
  · exact verify_trace hash2 d ops i (by omega)
  · obtain ⟨-, -, hl, -⟩ := treeInv_trace hash2 d ops
    simp only [MerkleTree.getLeaf, hl]
    rw [mapGet_buildLeaves_mid _ _ _ _ (by omega) (by omega)]
    simp

/-- C3 (witness): concrete instance of the round-trip theorem at depth
2 with two inserted leaves, index 1. -/
theorem proof_roundTrip_witness :
    MerkleTree.verifyProof pairHash
        ((applyOps pairHash (MerkleTree.new 2)
            [TreeOp.ins 1, TreeOp.ins 2]).getLeaf 1)
        (((applyOps pairHash (MerkleTree.new 2)
            [TreeOp.ins 1, TreeOp.ins 2]).getProof pairHash 1)).1
        ((((applyOps pairHash (MerkleTree.new 2)
            [TreeOp.ins 1, TreeOp.ins 2]).getProof pairHash 1)).2.getRoot
          pairHash).1
      = true
    ∧ (applyOps pairHash (MerkleTree.new 2)
        [TreeOp.ins 1, TreeOp.ins 2]).getLeaf 1
        = ((insertsOf [TreeOp.ins 1, TreeOp.ins 2]).get? 1).getD 0 :=
  proof_roundTrip_within_capacity pairHash 2 [TreeOp.ins 1, TreeOp.ins 2] 1
    (by decide) (by decide)

/-- C3 (counterexample): a depth-1 tree silently accepts a third leaf
(index 2, beyond the 2^1 capacity); that index is occupied
(leafCount = 3, leaf_2 = 3), yet its round-trip fails — refuting the
claim as stated over all trees. -/
theorem proof_roundTrip_fails_beyond_capacity :
    (applyOps pairHash (MerkleTree.new 1)
        [TreeOp.ins 1, TreeOp.ins 2, TreeOp.ins 3]).nextLeafIndex = 3
    ∧ (applyOps pairHash (MerkleTree.new 1)
        [TreeOp.ins 1, TreeOp.ins 2, TreeOp.ins 3]).getLeaf 2 = 3
    ∧ MerkleTree.verifyProof pairHash
        ((applyOps pairHash (MerkleTree.new 1)
            [TreeOp.ins 1, TreeOp.ins 2, TreeOp.ins 3]).getLeaf 2)
        (((applyOps pairHash (MerkleTree.new 1)
            [TreeOp.ins 1, TreeOp.ins 2, TreeOp.ins 3]).getProof pairHash 2)).1
        ((((applyOps pairHash (MerkleTree.new 1)
            [TreeOp.ins 1, TreeOp.ins 2, TreeOp.ins 3]).getProof
              pairHash 2)).2.getRoot pairHash).1
      = false := by
  decide

/-- C4: the root is a pure function of the ordered insert sequence and
the depth: recomputing getRoot on the state left by a previous getRoot
gives the same value, and any other trace (fresh tree, different
interleaving of proof/root queries, hence different cache contents)
with the same insert sequence yields the identical root. -/
theorem root_deterministic_of_inserts (hash2 : Nat → Nat → Nat) (d : Nat)
    (ops1 : List TreeOp) :
    (((applyOps hash2 (MerkleTree.new d) ops1).getRoot hash2).2.getRoot
        hash2).1
      = ((applyOps hash2 (MerkleTree.new d) ops1).getRoot hash2).1
    ∧ ∀ ops2 : List TreeOp, insertsOf ops2 = insertsOf ops1 →
        ((applyOps hash2 (MerkleTree.new d) ops2).getRoot hash2).1
          = ((applyOps hash2 (MerkleTree.new d) ops1).getRoot hash2).1 := by
  constructor
  · have h1 : applyOps hash2 (MerkleTree.new d) (ops1 ++ [TreeOp.rootQ])
        = ((applyOps hash2 (MerkleTree.new d) ops1).getRoot hash2).2 := by
      rw [applyOps_append]
      rfl
    have h2 := getRoot_trace hash2 d (ops1 ++ [TreeOp.rootQ])
    rw [h1] at h2
    rw [h2, getRoot_trace hash2 d ops1, insertsOf_append]
    simp [insertsOf, List.filterMap]
  · intro ops2 he
    rw [getRoot_trace hash2 d ops2, getRoot_trace hash2 d ops1, he]

/-- C4 (witness): two depth-2 traces with the same single insert but
different query interleavings produce the same root. -/
theorem root_deterministic_witness :
    ((applyOps pairHash (MerkleTree.new 2)
        [TreeOp.ins 1, TreeOp.rootQ]).getRoot pairHash).1
      = ((applyOps pairHash (MerkleTree.new 2)
          [TreeOp.ins 1, TreeOp.proofQ 0]).getRoot pairHash).1 :=
  (root_deterministic_of_inserts pairHash 2
      [TreeOp.ins 1, TreeOp.proofQ 0]).2
    [TreeOp.ins 1, TreeOp.rootQ] (by decide)

/-- C8: the static verifyProof folds over the supplied pathElements
only: with the empty path it reduces to leaf == root; in general it is
exactly the k-step recombination compared with root; and the length-k
prefix of a real proof verifies against the level-k ancestor value
(an internal node), so short paths verify against intermediate nodes. -/
theorem verifyProof_folds_path_length (hash2 : Nat → Nat → Nat)
    (leaf root : Nat) (path : MerklePath) (d : Nat) (ops : List TreeOp)
    (i k : Nat) (hk : k ≤ d) :
    (MerkleTree.verifyProof hash2 leaf ⟨[], []⟩ root = (leaf == root))
    ∧ (MerkleTree.verifyProof hash2 leaf path root
        = (computeRoot hash2 path.pathElements path.pathIndices leaf == root))
    ∧ MerkleTree.verifyProof hash2
        ((applyOps hash2 (MerkleTree.new d) ops).getLeaf i)
        ⟨(((applyOps hash2 (MerkleTree.new d) ops).getProof hash2
            i)).1.pathElements.take k,
          (((applyOps hash2 (MerkleTree.new d) ops).getProof hash2
            i)).1.pathIndices.take k⟩
        (specNode hash2 (applyOps hash2 (MerkleTree.new d) ops).leaves
          (applyOps hash2 (MerkleTree.new d) ops).nextLeafIndex k (i / 2 ^ k))
      = true := by
  refine ⟨rfl, rfl, ?_⟩
  obtain ⟨hv, hd, hl, hn⟩ := treeInv_trace hash2 d ops
  set t := applyOps hash2 (MerkleTree.new d) ops with ht
  obtain ⟨hp1, -, -, -, -⟩ := getProof_spec hash2 t i hv
  have hwf : LeavesWF t.leaves t.nextLeafIndex := by
    rw [hl, hn]
    exact leavesWF_buildLeaves _
  simp only [hp1, MerkleTree.verifyProof]
  rw [specSibs_take hash2 t.leaves t.nextLeafIndex t.depth k 0 i
      (by rw [hd]; exact hk),
    specBits_take t.depth k i (by rw [hd]; exact hk)]
  have hfold := computeRoot_specSibs hash2 t.leaves t.nextLeafIndex hwf k 0 i
  simp only [zero_add] at hfold
  have hgetLeaf : t.getLeaf i = specNode hash2 t.leaves t.nextLeafIndex 0 i :=
    rfl
  rw [hgetLeaf, hfold]
  exact beq_self_eq_true _

/-- C8 (witness): concrete instance with a length-1 prefix of a depth-2
proof verifying against the level-1 ancestor. -/
theorem verifyProof_folds_witness :
    (MerkleTree.verifyProof pairHash 5 ⟨[], []⟩ 7 = (5 == 7))
    ∧ (MerkleTree.verifyProof pairHash 5 (⟨[1], [0]⟩ : MerklePath) 7
        = (computeRoot pairHash [1] [0] 5 == 7))
    ∧ MerkleTree.verifyProof pairHash
        ((applyOps pairHash (MerkleTree.new 2)
            [TreeOp.ins 1, TreeOp.ins 2]).getLeaf 1)
        ⟨(((applyOps pairHash (MerkleTree.new 2)
            [TreeOp.ins 1, TreeOp.ins 2]).getProof pairHash
              1)).1.pathElements.take 1,
          (((applyOps pairHash (MerkleTree.new 2)
            [TreeOp.ins 1, TreeOp.ins 2]).getProof pairHash
              1)).1.pathIndices.take 1⟩
        (specNode pairHash (applyOps pairHash (MerkleTree.new 2)
            [TreeOp.ins 1, TreeOp.ins 2]).leaves
          (applyOps pairHash (MerkleTree.new 2)
            [TreeOp.ins 1, TreeOp.ins 2]).nextLeafIndex 1 (1 / 2 ^ 1))
      = true :=
  verifyProof_folds_path_length pairHash 5 7 ⟨[1], [0]⟩ 2
    [TreeOp.ins 1, TreeOp.ins 2] 1 1 (by decide)

/-- C9: at every position below the capacity where nothing was inserted,
getLeaf returns the zero leaf 0 and the generated authentication path
verifies that zero leaf against the current root. -/
theorem unoccupied_leaf_proofs_verify (hash2 : Nat → Nat → Nat) (d : Nat)
    (ops : List TreeOp) (i : Nat) (h1 : i < 2 ^ d)
    (h2 : (insertsOf ops).length ≤ i) :
    (applyOps hash2 (MerkleTree.new d) ops).getLeaf i = 0
    ∧ MerkleTree.verifyProof hash2 0
        (((applyOps hash2 (MerkleTree.new d) ops).getProof hash2 i)).1
        ((((applyOps hash2 (MerkleTree.new d) ops).getProof hash2
          i)).2.getRoot hash2).1
      = true := by
  have hleaf : (applyOps hash2 (MerkleTree.new d) ops).getLeaf i = 0 := by
    obtain ⟨-, -, hl, -⟩ := treeInv_trace hash2 d ops
    simp only [MerkleTree.getLeaf, hl]
    rw [mapGet_buildLeaves_high _ _ _ _ (by omega)]
    rfl
  refine ⟨hleaf, ?_⟩
  have hmain := verify_trace hash2 d ops i h1
  rw [hleaf] at hmain
  exact hmain

/-- C9 (witness): concrete instance at depth 2 with one inserted leaf,
unoccupied index 2. -/
theorem unoccupied_leaf_witness :
    (applyOps pairHash (MerkleTree.new 2) [TreeOp.ins 5]).getLeaf 2 = 0
    ∧ MerkleTree.verifyProof pairHash 0
        (((applyOps pairHash (MerkleTree.new 2)
            [TreeOp.ins 5]).getProof pairHash 2)).1
        ((((applyOps pairHash (MerkleTree.new 2)
            [TreeOp.ins 5]).getProof pairHash 2)).2.getRoot pairHash).1
      = true :=
  unoccupied_leaf_proofs_verify pairHash 2 [TreeOp.ins 5] 2 (by decide)
    (by decide)

/-- C1 (amended): verifyPaymentProof accepts only when the submitted
root exactly equals the current Payment Service root; a request whose
root equals the current root is never rejected with the stale-root
reason; and a request that passes all earlier stages (key loaded, proof
cryptographically valid, all three signal bindings matching) with a
differing root is rejected with exactly the stale-root reason.  (The
quantification "whenever the root differs" is too strong: earlier
stages can reject first with a different reason — see the
counterexample.) -/
theorem verifyPaymentProof_staleRoot_exactMatch (hash1 : Nat → Nat)
    (proofValid : Bool) (currentRoot : String) (req : ZKProofRequest) :
    ((verifyPaymentProof hash1 true proofValid currentRoot req).valid = true →
      req.root = currentRoot)
    ∧ (req.root = currentRoot →
        (verifyPaymentProof hash1 true proofValid currentRoot req).error
          ≠ some "Root does not match current Payment Service root")
    ∧ (proofValid = true →
        req.publicSignals.get? 0 = some req.root →
        req.publicSignals.get? 2 = some (toString req.priceCents) →
        req.publicSignals.get? 1 = some (quoteIdToField hash1 req.quoteId) →
        req.root ≠ currentRoot →
        verifyPaymentProof hash1 true proofValid currentRoot req
          = ⟨false, some "Root does not match current Payment Service root"⟩) := by
  simp only [verifyPaymentProof]
  rw [if_neg (by simp : ¬ (true = false))]
  cases proofValid with
  | false =>
    rw [if_pos rfl]
    exact ⟨by simp, fun _ => by simp, by simp⟩
  | true =>
    rw [if_neg (by simp : ¬ (true = false))]
    by_cases h0 : req.publicSignals.get? 0 ≠ some req.root
    · rw [if_pos h0]
      exact ⟨by simp, fun _ => by simp,
        fun _ hh0 _ _ _ => absurd hh0 h0⟩
    · rw [if_neg h0]
      by_cases h2 : req.publicSignals.get? 2 ≠ some (toString req.priceCents)
      · rw [if_pos h2]
        exact ⟨by simp, fun _ => by simp,
          fun _ _ hh2 _ _ => absurd hh2 h2⟩
      · rw [if_neg h2]
        by_cases h1 : req.publicSignals.get? 1
            ≠ some (quoteIdToField hash1 req.quoteId)
        · rw [if_pos h1]
          exact ⟨by simp, fun _ => by simp,
            fun _ _ _ hh1 _ => absurd hh1 h1⟩
        · rw [if_neg h1]
          by_cases hr : req.root ≠ currentRoot
          · rw [if_pos hr]
            exact ⟨by simp, fun he => absurd he hr,
              fun _ _ _ _ _ => rfl⟩
          · rw [if_neg hr]
            push_neg at hr
            exact ⟨fun _ => hr, fun _ => by simp,
              fun _ _ _ _ hne => absurd hr hne⟩

/-- C1 (witness): a request whose signals all match and whose root is
stale relative to the current root is rejected with exactly the
stale-root reason. -/
theorem verifyPaymentProof_staleRoot_witness :
    verifyPaymentProof idHash true true "root2"
        ⟨"Q", 7, "root1", ["root1", "82", "7"]⟩
      = ⟨false, some "Root does not match current Payment Service root"⟩ :=
  (verifyPaymentProof_staleRoot_exactMatch idHash true "root2"
      ⟨"Q", 7, "root1", ["root1", "82", "7"]⟩).2.2 rfl (by decide) (by decide)
    (by decide) (by decide)

/-- C1 (counterexample): a request whose root differs from the current
root but whose proof fails native verification is rejected with the
cryptographic-failure reason, not the stale-root reason — so "rejects
with a stale-root reason whenever the root differs" is false as
stated. -/
theorem verifyPaymentProof_staleReason_not_always :
    (⟨"Q", 7, "root1", ["root1", "82", "7"]⟩ : ZKProofRequest).root ≠ "root2"
    ∧ verifyPaymentProof idHash true false "root2"
        ⟨"Q", 7, "root1", ["root1", "82", "7"]⟩
      = ⟨false, some "Invalid cryptographic proof"⟩
    ∧ (some "Invalid cryptographic proof" : Option String)
      ≠ some "Root does not match current Payment Service root" := by
  exact ⟨by decide, rfl, by decide⟩

/-- C5 (amended): verifyTicketProof does validate proof and signal
structure before the native verification and short-circuits in order —
a failed structural check yields false without consulting the native
verifier, and passing all structural checks hands the verdict to the
native verifier (the rejection is a bare false, not a distinct
structural error).  verifyPaymentProof, by contrast, has no structural
stage at all: with the key loaded it invokes the native verification
directly, so a structurally invalid request (here: empty publicSignals)
is rejected with the cryptographic-failure reason instead of a
structural error. -/
theorem structural_validation_staging (isNum : String → Bool)
    (snarkResult : Bool) (proofBlob : Option Groth16ProofBlob)
    (publicSignals : List String) (hash1 : Nat → Nat) (currentRoot : String)
    (req : ZKProofRequest) :
    (structValid isNum proofBlob publicSignals = false →
      verifyTicketProof isNum true snarkResult proofBlob publicSignals
        = Except.ok false)
    ∧ (structValid isNum proofBlob publicSignals = true →
      verifyTicketProof isNum true snarkResult proofBlob publicSignals
        = Except.ok snarkResult)
    ∧ (req.publicSignals = [] →
      verifyPaymentProof hash1 true false currentRoot req
        = ⟨false, some "Invalid cryptographic proof"⟩) := by
  refine ⟨?_, ?_, ?_⟩
  · intro hbad
    exact verifyTicketProof_structBad isNum snarkResult proofBlob
      publicSignals hbad
  · intro hgood
    exact verifyTicketProof_structOk isNum snarkResult proofBlob
      publicSignals hgood
  · intro _
    rfl

/-- C5 (witness): a proof blob with wrong signal arity (empty list) is
rejected by verifyTicketProof without consulting the native verifier. -/
theorem structural_validation_witness :
    verifyTicketProof (fun _ => true) true true
        (some ⟨some [], some [], some [], some "groth16", some "bn128"⟩) []
      = Except.ok false :=
  (structural_validation_staging (fun _ => true) true
      (some ⟨some [], some [], some [], some "groth16", some "bn128"⟩) []
      idHash "r" ⟨"Q", 7, "r", []⟩).1 (by decide)

/-- C5 (counterexample): verifyPaymentProof runs the native verification
on a request with empty publicSignals (wrong arity): with the native
verifier failing it reports the cryptographic-failure reason, and its
outcome depends on the native verdict — no structural stage precedes
the native verification, refuting the claim for this verifier. -/
theorem verifyPaymentProof_no_structural_stage :
    (⟨"Q", 7, "r", []⟩ : ZKProofRequest).publicSignals.length ≠ 4
    ∧ verifyPaymentProof idHash true false "r" ⟨"Q", 7, "r", []⟩
        = ⟨false, some "Invalid cryptographic proof"⟩
    ∧ verifyPaymentProof idHash true true "r" ⟨"Q", 7, "r", []⟩
        ≠ verifyPaymentProof idHash true false "r" ⟨"Q", 7, "r", []⟩ := by
  exact ⟨by decide, rfl, by decide⟩

/-- C6: an initialized service given a non-positive price or an empty
quote id returns the validation failure and leaves the Merkle tree
state untouched: the returned state is the input state, so leafCount
and root are unchanged. -/
theorem processPayment_validation_no_mutation (hash1 : Nat → Nat)
    (hash2 : Nat → Nat → Nat) (hash3 : Nat → Nat → Nat → Nat)
    (secretBytes : List Nat) (t : MerkleTree) (req : PaymentRequest)
    (h : req.priceCents ≤ 0 ∨ req.quoteId = "") :
    processPayment hash1 hash2 hash3 secretBytes true t req
        = ({ success := false, secret := none, quoteId := none,
             priceCents := none, root := none, merklePath := none,
             error := some "Invalid payment request" }, t)
    ∧ (processPayment hash1 hash2 hash3 secretBytes true t req).2.nextLeafIndex
        = t.nextLeafIndex
    ∧ ((processPayment hash1 hash2 hash3 secretBytes true t req).2.getRoot
        hash2).1
      = (t.getRoot hash2).1 := by
  have hcond : req.quoteId = "" ∨ req.priceCents = 0 ∨ req.priceCents ≤ 0 := by
    rcases h with h | h
    · right; right; exact h
    · left; exact h
  have hmain : processPayment hash1 hash2 hash3 secretBytes true t req
      = ({ success := false, secret := none, quoteId := none,
           priceCents := none, root := none, merklePath := none,
           error := some "Invalid payment request" }, t) := by
    simp only [processPayment]
    rw [if_neg (by simp : ¬ (true = false)), if_pos hcond]
  exact ⟨hmain, by rw [hmain], by rw [hmain]⟩

/-- C6 (witness): concrete instance with an empty quote id. -/
theorem processPayment_validation_witness :
    processPayment idHash pairHash tripleHash [7] true (MerkleTree.new 2)
        ⟨"", 5⟩
        = ({ success := false, secret := none, quoteId := none,
             priceCents := none, root := none, merklePath := none,
             error := some "Invalid payment request" }, MerkleTree.new 2)
    ∧ (processPayment idHash pairHash tripleHash [7] true (MerkleTree.new 2)
        ⟨"", 5⟩).2.nextLeafIndex = (MerkleTree.new 2).nextLeafIndex
    ∧ ((processPayment idHash pairHash tripleHash [7] true (MerkleTree.new 2)
        ⟨"", 5⟩).2.getRoot pairHash).1
      = ((MerkleTree.new 2).getRoot pairHash).1 :=
  processPayment_validation_no_mutation idHash pairHash tripleHash [7]
    (MerkleTree.new 2) ⟨"", 5⟩ (by decide)

/-- C7: stringToField is the deterministic composition of UTF-8
encoding, big-endian base-256 interpretation (the byte fold of the
source equals the positional big-endian value), and the single-input
Poseidon hash; two invocations on the same string are equal. -/
theorem stringToField_bigEndian_poseidon (hash1 : Nat → Nat) (s : String) :
    stringToField hash1 s = hash1 (beValue (stringBytes s))
    ∧ stringToField hash1 s = stringToField hash1 s := by
  refine ⟨?_, rfl⟩
  simp only [stringToField, bytesToNatBE_eq_beValue]

/-- C10: the generated secret is always reduced into the BN128 scalar
field (0 ≤ s < p), and a successful processPayment returns exactly that
reduced secret, so the commitment hash is computed over an in-range
secret. -/
theorem generated_secret_in_field (hash1 : Nat → Nat)
    (hash2 : Nat → Nat → Nat) (hash3 : Nat → Nat → Nat → Nat)
    (secretBytes : List Nat) (initFlag : Bool) (t : MerkleTree)
    (req : PaymentRequest) :
    generateSecret secretBytes < fieldPrime
    ∧ ((processPayment hash1 hash2 hash3 secretBytes initFlag t req).1.success
          = true →
        (processPayment hash1 hash2 hash3 secretBytes initFlag t req).1.secret
          = some (generateSecret secretBytes)) := by
  constructor
  · exact Nat.mod_lt _ (by decide)
  · intro hs
    cases initFlag with
    | false => simp [processPayment] at hs
    | true =>
      simp only [processPayment, if_neg (by simp : ¬ (true = false))] at hs ⊢
      by_cases hval : req.quoteId = "" ∨ req.priceCents = 0
          ∨ req.priceCents ≤ 0
      · rw [if_pos hval] at hs
        simp at hs
      · rw [if_neg hval]

/-- C10 (witness): a concrete successful payment returns the reduced
secret, which lies below the field prime. -/
theorem generated_secret_witness :
    (processPayment idHash pairHash tripleHash [7] true (MerkleTree.new 1)
        ⟨"Q", 100⟩).1.secret = some (generateSecret [7])
    ∧ generateSecret [7] < fieldPrime :=
  ⟨(generated_secret_in_field idHash pairHash tripleHash [7] true
      (MerkleTree.new 1) ⟨"Q", 100⟩).2 (by decide),
    (generated_secret_in_field idHash pairHash tripleHash [7] true
      (MerkleTree.new 1) ⟨"Q", 100⟩).1⟩

end Meow
